import Mathlib

/-!
Formal model of the Schema-to-Layout Compiler of the Agentic Flow
Management System repository (`main.py`, `main_cli.py`).

The development shallowly embeds the pure, deterministic parts of the
code: column addressing (`col_letter` / `_col_letter`), the schema index
(`build_column_map`, `_get_column_letter`), the formula translator
(`translate_formula`, built on Python `re.sub` with word-boundary
patterns), the formula validator (the skip-and-warn loop of
`apply_formulas`), and the stage layout engine
(`_add_headers_with_stage_format`).  Machine integers are modelled as
`Nat`/`Int` (Python ints are unbounded); Python `divmod` is floor
division, i.e. `Int.fdiv`/`Int.fmod`.
-/

namespace FMS

/-! ## Column Addressing

`col_letter` in `main.py` (and the identical `_col_letter` in
`main_cli.py`):

```
def col_letter(index: int) -> str:
    result = ""
    while index:
        index, rem = divmod(index - 1, 26)
        result = chr(65 + rem) + result
    return result
```

The loop is modelled with explicit fuel so that termination is a
provable statement rather than an assumption: `none` means the fuel ran
out before the loop condition `index == 0` was reached.  `colLetterAux`
models the function on natural-number inputs; `colLetterIntAux` models
the same source text on arbitrary Python ints (floor `divmod`).
-/

def colLetterAux : Nat → Nat → Option (List Char)
  | _, 0 => some []
  | 0, _ + 1 => none
  | fuel + 1, n + 1 =>
    match colLetterAux fuel (n / 26) with
    | some s => some (s ++ [Char.ofNat (65 + n % 26)])
    | none => none

/-- `col_letter` on a natural-number position; fuel `n` is shown
sufficient below (`colLetterAux_total`). -/
def col_letter (n : Nat) : String :=
  match colLetterAux n n with
  | some s => String.mk s
  | none => ""

/-- The same loop over Python ints: `divmod` is floor division, so the
step is `index ← (index - 1).fdiv 26`, `rem ← (index - 1).fmod 26`. -/
def colLetterIntAux : Nat → Int → Option (List Char)
  | 0, i => if i = 0 then some [] else none
  | fuel + 1, i =>
    if i = 0 then some []
    else
      match colLetterIntAux fuel ((i - 1).fdiv 26) with
      | some s => some (s ++ [Char.ofNat (65 + ((i - 1).fmod 26)).toNat])
      | none => none

def upperChars : List Char := "ABCDEFGHIJKLMNOPQRSTUVWXYZ".data

lemma ofNat_mem_upperChars : ∀ r, r < 26 → Char.ofNat (65 + r) ∈ upperChars := by
  decide

/-- Fuel adequacy and output shape for the natural-number loop: with
fuel at least the input, the loop finishes, and for positive input the
result is a nonempty string of uppercase letters. -/
lemma colLetterAux_total :
    ∀ fuel n, n ≤ fuel →
      ∃ s, colLetterAux fuel n = some s ∧ (1 ≤ n → s ≠ []) ∧
        ∀ c ∈ s, c ∈ upperChars := by
  intro fuel
  induction fuel with
  | zero =>
    intro n hn
    interval_cases n
    exact ⟨[], rfl, by simp, by simp⟩
  | succ f ih =>
    intro n hn
    match n with
    | 0 => exact ⟨[], rfl, by simp, by simp⟩
    | m + 1 =>
      have hm2 : m / 26 ≤ f := le_trans (Nat.div_le_self m 26) (Nat.lt_succ_iff.mp hn)
      obtain ⟨s, hs, _, hall⟩ := ih (m / 26) hm2
      refine ⟨s ++ [Char.ofNat (65 + m % 26)], ?_, ?_, ?_⟩
      · show colLetterAux (f + 1) (m + 1) = _
        simp only [colLetterAux, hs]
      · intro _ h
        simp at h
      · intro c hc
        rcases List.mem_append.mp hc with h | h
        · exact hall c h
        · simp only [List.mem_singleton] at h
          subst h
          exact ofNat_mem_upperChars _ (Nat.mod_lt _ (by omega))

/-- Floor division of a negative int by 26 is negative. -/
lemma fdiv26_neg : ∀ j : Int, j < 0 → j.fdiv 26 < 0 := by
  intro j hj
  match j with
  | Int.ofNat n => exact absurd hj (Int.not_lt.mpr (Int.ofNat_zero_le n))
  | Int.negSucc m =>
    have h : (Int.negSucc m).fdiv 26 = Int.negSucc (m / 26) := rfl
    rw [h]
    exact Int.negSucc_lt_zero _

/-- A negative Python int never leaves the loop: the updated index
`(i - 1).fdiv 26` stays negative, so no fuel suffices. -/
lemma colLetterIntAux_neg : ∀ fuel (i : Int), i < 0 → colLetterIntAux fuel i = none := by
  intro fuel
  induction fuel with
  | zero =>
    intro i hi
    simp only [colLetterIntAux, if_neg (by omega : ¬ i = 0)]
  | succ f ih =>
    intro i hi
    have hstep : (i - 1).fdiv 26 < 0 := fdiv26_neg _ (by omega)
    simp only [colLetterIntAux, if_neg (by omega : ¬ i = 0), ih _ hstep]

/-! ## Formula Translator

`translate_formula` in `main.py`:

```
def translate_formula(formula: str, col_map: dict, row: int):
    for col, letter in col_map.items():
        formula = re.sub(
            rf"\b{re.escape(col)}\b",
            f"{letter}{row}",
            formula
        )
    return formula
```

The pattern is the *escaped* column name bracketed by `\b` word
boundaries, so the substitution is: replace every non-overlapping
occurrence of the literal column name that is word-bounded on both
sides, scanning left to right, with the replacement text not rescanned
within one `re.sub` call.  `\b` holds between a word character
(`[A-Za-z0-9_]` for these ASCII names) and a non-word character or a
string edge.  `subAux` embeds one such `re.sub` call (fuel = remaining
scan length); `translate_formula` folds the calls over the column map in
its (insertion) order, exactly as the Python loop does.
-/

def isWordChar (c : Char) : Bool := c.isAlphanum || c = '_'

def isWordOpt : Option Char → Bool
  | none => false
  | some c => isWordChar c

/-- Does the word-bounded literal pattern `p` match at the current scan
position, where `prev` is the character just before that position in
the original string (none at the string start) and `s` is the rest of
the string from that position on? -/
def matchAt (p : List Char) (prev : Option Char) (s : List Char) : Bool :=
  !p.isEmpty && p.isPrefixOf s &&
    (isWordChar (p.headD ' ') != isWordOpt prev) &&
    (isWordChar (p.getLastD ' ') != isWordOpt (s.drop p.length).head?)

/-- One `re.sub(\b p \b, r, ·)` scan: at each position either the
pattern matches (emit `r`, skip the matched characters) or the current
character is kept.  `fuel` bounds the number of scan steps; `s.length`
always suffices since every step consumes at least one character. -/
def subAux (p r : List Char) : Nat → Option Char → List Char → List Char
  | 0, _, s => s
  | _ + 1, _, [] => []
  | fuel + 1, prev, c :: rest =>
    if matchAt p prev (c :: rest) then
      r ++ subAux p r fuel (some (p.getLastD ' ')) ((c :: rest).drop p.length)
    else
      c :: subAux p r fuel (some c) rest

def reSubWB (p r s : List Char) : List Char := subAux p r s.length none s

/-- Is there any word-bounded occurrence of `p` in `s` (with `prev` the
character before the scan start)? -/
def hasMatchAux (p : List Char) : Option Char → List Char → Bool
  | _, [] => false
  | prev, c :: rest => matchAt p prev (c :: rest) || hasMatchAux p (some c) rest

def hasMatch (p s : List Char) : Bool := hasMatchAux p none s

/-- `translate_formula`: sequential per-column `re.sub`, in column-map
order, with replacement `f"{letter}{row}"`. -/
def translate_formula (formula : List Char) (col_map : List (List Char × List Char))
    (row : Nat) : List Char :=
  col_map.foldl (fun f cl => reSubWB cl.1 (cl.2 ++ (Nat.repr row).data) f) formula

/-! ## Schema Index (`main.py`)

```
def build_column_map(flow: FlowSchema):
    return {
        sheet.name: {
            col: col_letter(i + 1)
            for i, col in enumerate(sheet.get_column_names())
        }
        for sheet in flow.sheets
    }
```

`PySheet` models `main.py`'s `SheetSchema` after `get_column_names()`:
its columns may be plain strings or records, but only the extracted
name list is ever consulted, so `columns` here holds those names. -/

structure PySheet where
  name : String
  columns : List String

def build_column_map (sheets : List PySheet) : List (String × List (String × String)) :=
  sheets.map (fun sh => (sh.name, sh.columns.enum.map (fun p => (p.2, col_letter (p.1 + 1)))))

/-- A `re.sub` scan that finds no word-bounded occurrence of the
pattern leaves the string unchanged. -/
lemma subAux_id (p r : List Char) :
    ∀ fuel prev s, hasMatchAux p prev s = false → subAux p r fuel prev s = s := by
  intro fuel
  induction fuel with
  | zero => intro prev s _; rfl
  | succ f ih =>
    intro prev s h
    match s with
    | [] => rfl
    | c :: rest =>
      simp only [hasMatchAux, Bool.or_eq_false_iff] at h
      simp only [subAux, h.1, Bool.false_eq_true, if_false]
      exact congrArg (c :: ·) (ih (some c) rest h.2)

/-- The overlapping-names column map of §8's regression test, built by
`build_column_map` from a sheet with columns Total (position 1) and
Total Amount (position 2). -/
def exTotalsMap : List (List Char × List Char) :=
  (((build_column_map [⟨"S", ["Total", "Total Amount"]⟩]).lookup "S").getD []).map
    (fun p => (p.1.data, p.2.data))

/-- The already-translated formula and map for the idempotence witness. -/
def exIdemMap : List (List Char × List Char) :=
  [("Total".data, "A".data), ("Total Amount".data, "B".data)]

end FMS

/-- C1 (claim fails on the code): with columns Total ↦ A and
Total Amount ↦ B, translating "Total Amount + Total" at row 5 by the
sequential per-column substitution of `translate_formula` yields
"A5 Amount + A5" — the substitution for the shorter name corrupts the
occurrence of the longer one — and not the "B5 + A5" the claim
requires. -/
theorem FMS.c1_sequential_replace_corrupts :
    FMS.translate_formula "Total Amount + Total".data FMS.exTotalsMap 5 =
        "A5 Amount + A5".data ∧
      FMS.translate_formula "Total Amount + Total".data FMS.exTotalsMap 5 ≠
        "B5 + A5".data := by
  constructor
  · decide
  · decide

/-- C6: column-position-to-letters conversion is bijective base-26
spreadsheet naming: the outputs for positions 1..28 are exactly
A, B, ..., Z, AA, AB (in particular 26 ↦ "Z" and 27 ↦ "AA", never a
digit-zero-style label). -/
theorem FMS.c6_col_letter_first_28 :
    (List.range 28).map (fun i => FMS.col_letter (i + 1)) =
      ["A", "B", "C", "D", "E", "F", "G", "H", "I", "J", "K", "L", "M",
       "N", "O", "P", "Q", "R", "S", "T", "U", "V", "W", "X", "Y", "Z",
       "AA", "AB"] := by
  decide

/-- C7: for every input position that is 0 or negative, the
position-to-letters loop never returns a normal column label: if it
returns at all (input 0), the result is the empty string; for negative
input the loop never terminates (`colLetterIntAux_neg`). -/
theorem FMS.c7_col_letter_nonpos (i : Int) (fuel : Nat) (s : List Char)
    (hi : i ≤ 0) (h : FMS.colLetterIntAux fuel i = some s) : s = [] := by
  rcases lt_or_eq_of_le hi with hlt | heq
  · rw [FMS.colLetterIntAux_neg fuel i hlt] at h
    cases h
  · subst heq
    cases fuel with
    | zero => simpa [FMS.colLetterIntAux] using h.symm
    | succ f => simpa [FMS.colLetterIntAux] using h.symm

theorem FMS.c7_witness : (0 : Int) ≤ 0 ∧ ([] : List Char) = [] :=
  ⟨by decide, FMS.c7_col_letter_nonpos 0 3 [] (by decide) (by decide)⟩

/-- C10 (implicit): for every positive position `n` the conversion loop
terminates — fuel `n` suffices, since the index strictly decreases under
`divmod(index - 1, 26)` — and returns a nonempty string consisting only
of the uppercase letters A–Z. -/
theorem FMS.c10_col_letter_terminates (n : Nat) (h : 1 ≤ n) :
    ∃ s, FMS.colLetterAux n n = some s ∧ s ≠ [] ∧ ∀ c ∈ s, c ∈ FMS.upperChars := by
  obtain ⟨s, hs, hne, hall⟩ := FMS.colLetterAux_total n n le_rfl
  exact ⟨s, hs, hne h, hall⟩

theorem FMS.c10_witness :
    (1 ≤ 30) ∧
      ∃ s, FMS.colLetterAux 30 30 = some s ∧ s ≠ [] ∧ ∀ c ∈ s, c ∈ FMS.upperChars :=
  ⟨by decide, FMS.c10_col_letter_terminates 30 (by decide)⟩

/-- C9: formula translation is idempotent at a fixed row — if no
word-bounded occurrence of any column name of the map remains in the
formula (as in an already fully translated, pure letter+row formula),
translating again with the same map and row returns it unchanged. -/
theorem FMS.c9_translate_idempotent (formula : List Char)
    (col_map : List (List Char × List Char)) (row : Nat)
    (h : ∀ cl ∈ col_map, FMS.hasMatch cl.1 formula = false) :
    FMS.translate_formula formula col_map row = formula := by
  induction col_map with
  | nil => rfl
  | cons cl rest ih =>
    have h1 : FMS.reSubWB cl.1 (cl.2 ++ (Nat.repr row).data) formula = formula :=
      FMS.subAux_id _ _ _ _ _ (h cl (by simp))
    simp only [FMS.translate_formula, List.foldl_cons, h1]
    exact ih (fun x hx => h x (by simp [hx]))

theorem FMS.c9_witness :
    (∀ cl ∈ FMS.exIdemMap, FMS.hasMatch cl.1 "A5 + B5".data = false) ∧
      FMS.translate_formula "A5 + B5".data FMS.exIdemMap 5 = "A5 + B5".data :=
  ⟨by decide, FMS.c9_translate_idempotent _ _ 5 (by decide)⟩

namespace FMS

/-! ## Schema model of `main_cli.py`

`ColumnInfo`, `WorkflowStage` and `SheetSchema` keep only the fields the
layout/addressing code consults (`name`, `stage_number`, `stage_name`,
`columns`, `stages`); `get_column_names` is
`[col.name for col in self.columns]`. -/

structure ColumnInfo where
  name : String
  stage_number : Option Int
deriving DecidableEq

structure WorkflowStage where
  stage_number : Int
  stage_name : String
  columns : List String
deriving DecidableEq

structure SheetSchema where
  name : String
  columns : List ColumnInfo
  stages : List WorkflowStage
deriving DecidableEq

def get_column_names (sheet : SheetSchema) : List String :=
  sheet.columns.map (fun c => c.name)

/-! `_get_column_letter` in `main_cli.py`:

```
def _get_column_letter(self, col_name, flow, sheet_name):
    sheet = next((s for s in flow.sheets if s.name == sheet_name), None)
    if not sheet:
        return "A"
    col_names = sheet.get_column_names()
    try:
        col_index = col_names.index(col_name)
        return self._col_letter(col_index + 1)
    except ValueError:
        return "A"
```

`list.index` returns the first matching index or raises `ValueError`,
which is caught and turned into the default `"A"`. -/

def _get_column_letter (col_name : String) (sheets : List SheetSchema)
    (sheet_name : String) : String :=
  match sheets.find? (fun s => s.name == sheet_name) with
  | none => "A"
  | some sheet =>
    match (get_column_names sheet).findIdx? (fun n => n == col_name) with
    | some i => col_letter (i + 1)
    | none => "A"

def exCliFlow : List SheetSchema := [⟨"S", [⟨"X", none⟩], []⟩]

/-! ## Formula Validator

The skip-and-warn loop of `apply_formulas` in `main.py`:

```
for rule in plan.formulas:
    if rule.sheet not in col_map:
        print(f"Skipping formula: Sheet '{rule.sheet}' not found")
        continue
    if rule.target_column not in col_map[rule.sheet]:
        print(f"Skipping formula: Column '{rule.target_column}' not found in sheet '{rule.sheet}'")
        print(f"   Available columns: {', '.join(col_map[rule.sheet].keys())}")
        continue
    ... apply the rule ...
```

Modelled as a function from the column map and the rule list to the
pair (accepted rules, warning messages); the two skip prints for a
missing column are one warning event, rendered as one message (quote
characters elided). -/

structure FormulaRule where
  sheet : String
  target_column : String
  start_row : Nat
  formula : String
  description : String
deriving DecidableEq

def sheetWarning (r : FormulaRule) : String :=
  "Skipping formula: Sheet " ++ r.sheet ++ " not found"

def colWarning (r : FormulaRule) (cols : List (String × String)) : String :=
  "Skipping formula: Column " ++ r.target_column ++ " not found in sheet " ++
    r.sheet ++ ". Available columns: " ++
    String.intercalate ", " (cols.map Prod.fst)

def validate_formulas (col_map : List (String × List (String × String))) :
    List FormulaRule → List FormulaRule × List String
  | [] => ([], [])
  | r :: rest =>
    let res := validate_formulas col_map rest
    match col_map.lookup r.sheet with
    | none => (res.1, sheetWarning r :: res.2)
    | some cols =>
      if (cols.lookup r.target_column).isSome then (r :: res.1, res.2)
      else (res.1, colWarning r cols :: res.2)

/-- Spec-facing acceptance predicate: the rule's sheet is in the index
and its target column is in that sheet's columns. -/
def ruleOk (col_map : List (String × List (String × String)))
    (r : FormulaRule) : Bool :=
  match col_map.lookup r.sheet with
  | none => false
  | some cols => (cols.lookup r.target_column).isSome

/-- Spec-facing warning for a dropped rule (none when the rule is
accepted): "sheet not found" for a missing sheet, and a message naming
the sheet, the missing column, and the existing columns otherwise. -/
def warningOf (col_map : List (String × List (String × String)))
    (r : FormulaRule) : Option String :=
  match col_map.lookup r.sheet with
  | none => some (sheetWarning r)
  | some cols =>
    if (cols.lookup r.target_column).isSome then none
    else some (colWarning r cols)

def exC4Map : List (String × List (String × String)) :=
  build_column_map [⟨"Orders", ["Qty", "Price", "Total"]⟩]

def exC4Rule1 : FormulaRule := ⟨"Orders", "Total", 2, "Qty * Price", "total"⟩

def exC4Rule2 : FormulaRule := ⟨"Orders", "Tax", 2, "Total * 0.1", "tax"⟩

end FMS

/-- C2 (claim fails on the code): `_get_column_letter` silently defaults
to "A" — both for a column absent from the sheet and for an unknown
sheet — which is indistinguishable from the answer for a real column at
position 1. -/
theorem FMS.c2_silent_default_A :
    FMS._get_column_letter "Missing" FMS.exCliFlow "S" = "A" ∧
      FMS._get_column_letter "X" FMS.exCliFlow "NoSheet" = "A" ∧
      FMS._get_column_letter "X" FMS.exCliFlow "S" = "A" := by
  refine ⟨by decide, by decide, by decide⟩

/-- C4: validation drops exactly the rules whose sheet is absent (with a
"sheet not found" warning) or whose target column is absent (with a
warning naming the sheet, the missing column, and the existing
columns), keeps every other rule unchanged in input order; on the
two-rule example (one valid rule, one rule with a nonexistent column)
it accepts exactly the first rule and produces exactly one warning. -/
theorem FMS.c4_validator_filters :
    (∀ col_map rules,
        FMS.validate_formulas col_map rules =
          (rules.filter (FMS.ruleOk col_map),
           rules.filterMap (FMS.warningOf col_map))) ∧
      FMS.validate_formulas FMS.exC4Map [FMS.exC4Rule1, FMS.exC4Rule2] =
        ([FMS.exC4Rule1],
         ["Skipping formula: Column Tax not found in sheet Orders. Available columns: Qty, Price, Total"]) := by
  constructor
  · intro col_map rules
    induction rules with
    | nil => rfl
    | cons r rest ih =>
      simp only [FMS.validate_formulas, ih]
      cases h : col_map.lookup r.sheet with
      | none =>
        simp [List.filter_cons, List.filterMap_cons, FMS.ruleOk, FMS.warningOf, h]
      | some cols =>
        by_cases hc : (cols.lookup r.target_column).isSome
        · simp [List.filter_cons, List.filterMap_cons, FMS.ruleOk, FMS.warningOf, h, hc]
        · simp [List.filter_cons, List.filterMap_cons, FMS.ruleOk, FMS.warningOf, h, hc]
  · decide

namespace FMS

/-! ## Stage Layout Engine

The stage band computation of `_add_headers_with_stage_format` in
`main_cli.py`:

```
stage_names_row = [""] * len(column_names)
stage_ranges = {}
col_indices = {name: i for i, name in enumerate(column_names)}

for stage in sheet.stages:
    start_idx = None
    end_idx = None
    for col_name in stage.columns:
        if col_name in col_indices:
            idx = col_indices[col_name]
            if start_idx is None or idx < start_idx: start_idx = idx
            if end_idx is None or idx > end_idx: end_idx = idx
    if start_idx is None:
        for col in sheet.columns:
            if col.stage_number == stage.stage_number:
                idx = col_indices.get(col.name)
                if idx is not None:
                    if start_idx is None or idx < start_idx: start_idx = idx
                    if end_idx is None or idx > end_idx: end_idx = idx
    if start_idx is not None and end_idx is not None:
        stage_names_row[start_idx] = stage.stage_name
        stage_ranges[stage.stage_number] = {"start": start_idx, "end": end_idx,
                                            "name": stage.stage_name}
```

and the per-stage color `STAGE_COLORS[(stage_num - 1) % len(STAGE_COLORS)]`.
`stage_ranges` is an insertion-ordered dict, modelled as an association
list with update-in-place-or-append (`upsert`); `col_indices` is a dict
built from `enumerate`, so a duplicated name maps to its last index. -/

def colIndex (names : List String) (n : String) : Option Nat :=
  (names.enum.filterMap (fun p => if p.2 = n then some p.1 else none)).getLast?

/-- The `start_idx`/`end_idx` accumulator of the source loops: `none`
until the first index, then componentwise min/max. -/
def accMinMax : Option (Nat × Nat) → Nat → Option (Nat × Nat)
  | none, i => some (i, i)
  | some (s, e), i => some (min s i, max e i)

/-- First resolution pass: the stage's explicit column-name list,
looked up in the sheet's column indices. -/
def explicitRange (names : List String) (st : WorkflowStage) : Option (Nat × Nat) :=
  st.columns.foldl (fun acc cn =>
    match colIndex names cn with
    | some i => accMinMax acc i
    | none => acc) none

/-- Fallback pass (only reached when the explicit pass found nothing):
sheet columns whose `stage_number` equals this stage's number. -/
def fallbackRange (names : List String) (cols : List ColumnInfo)
    (st : WorkflowStage) : Option (Nat × Nat) :=
  cols.foldl (fun acc col =>
    if col.stage_number = some st.stage_number then
      match colIndex names col.name with
      | some i => accMinMax acc i
      | none => acc
    else acc) none

def resolveRange (names : List String) (cols : List ColumnInfo)
    (st : WorkflowStage) : Option (Nat × Nat) :=
  match explicitRange names st with
  | some r => some r
  | none => fallbackRange names cols st

/-- Insertion-ordered-dict assignment `stage_ranges[k] = v`. -/
def upsert (k : Int) (v : (Nat × Nat) × String)
    (l : List (Int × ((Nat × Nat) × String))) :
    List (Int × ((Nat × Nat) × String)) :=
  if l.any (fun p => p.1 == k) then
    l.map (fun p => if p.1 == k then (k, v) else p)
  else l ++ [(k, v)]

/-- One iteration of the `for stage in sheet.stages` loop, acting on the
(stage-name row, stage-ranges dict) state. -/
def layoutStep (names : List String) (cols : List ColumnInfo)
    (acc : List String × List (Int × ((Nat × Nat) × String)))
    (st : WorkflowStage) :
    List String × List (Int × ((Nat × Nat) × String)) :=
  match resolveRange names cols st with
  | none => acc
  | some (s, e) =>
    (acc.1.set s st.stage_name, upsert st.stage_number ((s, e), st.stage_name) acc.2)

structure StageLayout where
  names_row : List String
  ranges : List (Int × ((Nat × Nat) × String))
deriving DecidableEq

def stageLayout (sheet : SheetSchema) : StageLayout :=
  let names := get_column_names sheet
  let res := sheet.stages.foldl (layoutStep names sheet.columns)
      (List.replicate names.length "", [])
  ⟨res.1, res.2⟩

def STAGE_COLORS : List (ℚ × ℚ × ℚ) :=
  [(9/10, 85/100, 85/100), (85/100, 9/10, 85/100), (85/100, 85/100, 9/10),
   (95/100, 9/10, 75/100), (9/10, 85/100, 9/10), (85/100, 95/100, 9/10),
   (95/100, 85/100, 8/10), (9/10, 9/10, 85/100)]

/-- `STAGE_COLORS[(stage_num - 1) % len(STAGE_COLORS)]` (Python `%` is
`Int.fmod`; the index is always in range, so the lookup is `some`). -/
def stageColor (n : Int) : Option (ℚ × ℚ × ℚ) :=
  STAGE_COLORS.get? ((n - 1).fmod (STAGE_COLORS.length : Int)).toNat

def coloredRanges (L : StageLayout) :
    List ((Int × ((Nat × Nat) × String)) × Option (ℚ × ℚ × ℚ)) :=
  L.ranges.map (fun e => (e, stageColor e.1))

/-- The stage list sorted ascending by stage number (what §3 of the
spec says the compiler does before computing ranges). -/
def sortStages (l : List WorkflowStage) : List WorkflowStage :=
  List.insertionSort (fun a b => a.stage_number ≤ b.stage_number) l

/-! Spec-facing restatement of the range computation (§4.5): the minimal
contiguous `[start, end]` range over the resolvable member columns, with
explicit-list resolution first and stage-number fallback only when the
explicit list matched nothing. -/

def listMinMax : List Nat → Option (Nat × Nat)
  | [] => none
  | x :: xs => some (xs.foldl min x, xs.foldl max x)

def specResolveRange (names : List String) (cols : List ColumnInfo)
    (st : WorkflowStage) : Option (Nat × Nat) :=
  match listMinMax (st.columns.filterMap (colIndex names)) with
  | some r => some r
  | none =>
    listMinMax
      ((cols.filter (fun c => decide (c.stage_number = some st.stage_number))).filterMap
        (fun c => colIndex names c.name))

end FMS

namespace FMS

lemma foldl_accMinMax_some (xs : List Nat) :
    ∀ s e, xs.foldl accMinMax (some (s, e)) = some (xs.foldl min s, xs.foldl max e) := by
  induction xs with
  | nil => intro s e; rfl
  | cons x xs ih =>
    intro s e
    simp only [List.foldl_cons, accMinMax]
    exact ih _ _

lemma foldl_accMinMax_none (xs : List Nat) :
    xs.foldl accMinMax none = listMinMax xs := by
  cases xs with
  | nil => rfl
  | cons x xs =>
    simp only [List.foldl_cons, accMinMax, listMinMax]
    exact foldl_accMinMax_some xs x x

/-- The explicit-columns loop is the min/max fold over the indices of
the names that resolve. -/
lemma explicitRange_eq (names : List String) (st : WorkflowStage) :
    explicitRange names st = listMinMax (st.columns.filterMap (colIndex names)) := by
  rw [← foldl_accMinMax_none]
  show st.columns.foldl _ none = _
  generalize (none : Option (Nat × Nat)) = acc
  induction st.columns generalizing acc with
  | nil => rfl
  | cons cn l ih =>
    simp only [List.foldl_cons, List.filterMap_cons]
    cases h : colIndex names cn with
    | none => simp only [h]; exact ih _
    | some i => simp only [h, List.foldl_cons]; exact ih _

/-- The fallback loop is the min/max fold over the indices of the
stage-number-tagged columns. -/
lemma fallbackRange_eq (names : List String) (cols : List ColumnInfo)
    (st : WorkflowStage) :
    fallbackRange names cols st =
      listMinMax
        ((cols.filter (fun c => decide (c.stage_number = some st.stage_number))).filterMap
          (fun c => colIndex names c.name)) := by
  rw [← foldl_accMinMax_none]
  show cols.foldl _ none = _
  generalize (none : Option (Nat × Nat)) = acc
  induction cols generalizing acc with
  | nil => rfl
  | cons col l ih =>
    by_cases hc : col.stage_number = some st.stage_number
    · have hf : List.filter (fun c => decide (c.stage_number = some st.stage_number)) (col :: l)
          = col :: List.filter (fun c => decide (c.stage_number = some st.stage_number)) l := by
        simp [List.filter_cons, hc]
      simp only [List.foldl_cons, hf, List.filterMap_cons]
      rw [if_pos hc]
      cases h : colIndex names col.name with
      | none => simp only [h]; exact ih _
      | some i => simp only [h, List.foldl_cons]; exact ih _
    · have hf : List.filter (fun c => decide (c.stage_number = some st.stage_number)) (col :: l)
          = List.filter (fun c => decide (c.stage_number = some st.stage_number)) l := by
        simp [List.filter_cons, hc]
      simp only [List.foldl_cons, hf]
      rw [if_neg hc]
      exact ih _

lemma resolveRange_eq_spec (names : List String) (cols : List ColumnInfo)
    (st : WorkflowStage) :
    resolveRange names cols st = specResolveRange names cols st := by
  unfold resolveRange specResolveRange
  rw [explicitRange_eq, fallbackRange_eq]

def exC5Sheet : SheetSchema :=
  ⟨"S",
   [⟨"c0", none⟩, ⟨"c1", none⟩, ⟨"c2", none⟩, ⟨"c3", none⟩, ⟨"c4", none⟩,
    ⟨"c5", none⟩, ⟨"c6", none⟩],
   [⟨1, "Stage One", ["c3", "c4", "c5"]⟩, ⟨2, "Stage Two", ["c6"]⟩]⟩

end FMS

/-- C5: the computed stage range is the minimal `[start, end]` over the
resolvable member columns, resolving first via the stage's explicit
column list intersected with the sheet's columns and only on no match
via the columns' stage-number field (`specResolveRange` states §4.5
verbatim); concretely, a stage claiming columns at positions 3–5 and
one claiming position 6 get ranges (3,5) and (6,6). -/
theorem FMS.c5_minimal_ranges :
    (∀ names cols st,
        FMS.resolveRange names cols st = FMS.specResolveRange names cols st) ∧
      (FMS.stageLayout FMS.exC5Sheet).ranges =
        [(1, ((3, 5), "Stage One")), (2, ((6, 6), "Stage Two"))] := by
  constructor
  · exact FMS.resolveRange_eq_spec
  · decide

namespace FMS

lemma layoutStep_none (names : List String) (cols : List ColumnInfo)
    (st : WorkflowStage) (h : resolveRange names cols st = none)
    (acc : List String × List (Int × ((Nat × Nat) × String))) :
    layoutStep names cols acc st = acc := by
  unfold layoutStep
  rw [h]

def exC8Cols : List ColumnInfo := [⟨"X", none⟩]

def exC8Ghost : WorkflowStage := ⟨5, "Ghost", ["Nope"]⟩

def exC8Pre : List WorkflowStage := [⟨1, "One", ["X"]⟩]

end FMS

/-- C8: a stage whose explicit column list does not intersect the
sheet's columns and whose stage-number fallback also resolves nothing
(`resolveRange = none`) contributes no layout region at all — removing
it from the stage list leaves the whole layout (stage-name row and
every other stage's range) unchanged, with no error. -/
theorem FMS.c8_unresolved_stage_skipped (nm : String) (cols : List FMS.ColumnInfo)
    (pre post : List FMS.WorkflowStage) (st : FMS.WorkflowStage)
    (h : FMS.resolveRange (cols.map (fun c => c.name)) cols st = none) :
    FMS.stageLayout ⟨nm, cols, pre ++ st :: post⟩ =
      FMS.stageLayout ⟨nm, cols, pre ++ post⟩ := by
  simp only [FMS.stageLayout, FMS.get_column_names]
  rw [List.foldl_append, List.foldl_append, List.foldl_cons,
    FMS.layoutStep_none _ _ _ h]

theorem FMS.c8_witness :
    FMS.resolveRange (FMS.exC8Cols.map (fun c => c.name)) FMS.exC8Cols FMS.exC8Ghost
        = none ∧
      FMS.stageLayout ⟨"S", FMS.exC8Cols, FMS.exC8Pre ++ FMS.exC8Ghost :: []⟩ =
        FMS.stageLayout ⟨"S", FMS.exC8Cols, FMS.exC8Pre ++ []⟩ :=
  ⟨by decide, FMS.c8_unresolved_stage_skipped "S" _ _ _ _ (by decide)⟩

namespace FMS

/-- The (number, range, name) entry a single stage contributes,
independently of every other stage. -/
def entryOf (names : List String) (cols : List ColumnInfo)
    (st : WorkflowStage) : Option (Int × ((Nat × Nat) × String)) :=
  (resolveRange names cols st).map (fun r => (st.stage_number, (r, st.stage_name)))

lemma upsert_fresh (k : Int) (v : (Nat × Nat) × String)
    (l : List (Int × ((Nat × Nat) × String)))
    (h : k ∉ l.map Prod.fst) : upsert k v l = l ++ [(k, v)] := by
  unfold upsert
  rw [if_neg]
  intro hany
  simp only [List.any_eq_true, beq_iff_eq] at hany
  obtain ⟨p, hp, hpk⟩ := hany
  exact h (hpk ▸ List.mem_map_of_mem Prod.fst hp)

/-- With pairwise-distinct stage numbers untouched by the accumulator,
the stage-ranges dict built by the loop is the accumulator followed by
each stage's independent entry, in processing order. -/
lemma foldl_ranges (names : List String) (cols : List ColumnInfo) :
    ∀ (stages : List WorkflowStage) (nr : List String)
      (rg : List (Int × ((Nat × Nat) × String))),
      (stages.map (fun st => st.stage_number)).Nodup →
      (∀ k ∈ rg.map Prod.fst, k ∉ stages.map (fun st => st.stage_number)) →
      (stages.foldl (layoutStep names cols) (nr, rg)).2 =
        rg ++ stages.filterMap (entryOf names cols) := by
  intro stages
  induction stages with
  | nil => intro nr rg _ _; simp
  | cons st rest ih =>
    intro nr rg hnd hdisj
    simp only [List.map_cons, List.nodup_cons] at hnd
    simp only [List.foldl_cons, List.filterMap_cons]
    cases h : resolveRange names cols st with
    | none =>
      rw [layoutStep_none _ _ _ h]
      have he : entryOf names cols st = none := by
        unfold entryOf
        rw [h]
        rfl
      rw [he]
      exact ih nr rg hnd.2 (fun k hk => by
        have := hdisj k hk
        simp only [List.map_cons, List.mem_cons] at this
        intro hmem
        exact this (Or.inr hmem))
    | some r =>
      obtain ⟨s, e⟩ := r
      have hstep : layoutStep names cols (nr, rg) st =
          (nr.set s st.stage_name,
           upsert st.stage_number ((s, e), st.stage_name) rg) := by
        unfold layoutStep
        rw [h]
      rw [hstep]
      have hfresh : st.stage_number ∉ rg.map Prod.fst := by
        intro hk
        exact hdisj _ hk (by simp)
      rw [upsert_fresh _ _ _ hfresh]
      have he : entryOf names cols st = some (st.stage_number, ((s, e), st.stage_name)) := by
        unfold entryOf
        rw [h]
        rfl
      rw [he]
      have hdisj2 : ∀ k ∈ (rg ++ [(st.stage_number, ((s, e), st.stage_name))]).map Prod.fst,
          k ∉ rest.map (fun st => st.stage_number) := by
        intro k hk
        simp only [List.map_append, List.mem_append, List.map_cons, List.mem_singleton,
          List.map_nil] at hk
        rcases hk with hk | hk
        · have := hdisj k hk
          simp only [List.map_cons, List.mem_cons] at this
          intro hmem
          exact this (Or.inr hmem)
        · exact hk ▸ hnd.1
      rw [ih (nr.set s st.stage_name) _ hnd.2 hdisj2, List.append_assoc]
      rfl

/-- The stage-ranges dict of the produced layout, for stage lists with
pairwise-distinct stage numbers: one entry per resolvable stage, in
processing (declared) order. -/
lemma stageLayout_ranges (nm : String) (cols : List ColumnInfo)
    (stages : List WorkflowStage)
    (h : (stages.map (fun st => st.stage_number)).Nodup) :
    (stageLayout ⟨nm, cols, stages⟩).ranges =
      stages.filterMap (entryOf (cols.map (fun c => c.name)) cols) := by
  simp only [stageLayout, get_column_names]
  rw [foldl_ranges _ _ _ _ _ h (by simp)]
  rfl

def exC3Cols : List ColumnInfo := [⟨"C0", none⟩]

def exC3Unsorted : List WorkflowStage := [⟨2, "Two", ["C0"]⟩, ⟨1, "One", ["C0"]⟩]

def exC3wCols : List ColumnInfo := [⟨"C0", none⟩, ⟨"C1", none⟩]

def exC3wStages : List WorkflowStage := [⟨2, "Two", ["C1"]⟩, ⟨1, "One", ["C0"]⟩]

end FMS

/-- C3 is false as stated: the engine iterates `sheet.stages` in
declared order without sorting, and the produced layout is not always
the one of the sorted stage list.  With one column and two stages both
resolving to it, declared out of order, the declared-order layout
writes "One" into the stage-name cell (the later-processed stage wins)
while the sorted list writes "Two". -/
theorem FMS.c3_counterexample :
    FMS.stageLayout ⟨"S", FMS.exC3Cols, FMS.exC3Unsorted⟩ ≠
      FMS.stageLayout ⟨"S", FMS.exC3Cols, FMS.sortStages FMS.exC3Unsorted⟩ := by
  decide

/-- C3 (amended): the engine processes stages in declared order, not
ascending stage-number order; but because every stage's range, name and
color are computed independently of the other stages, for stage lists
with pairwise-distinct stage numbers the colored range entries of the
produced layout are a permutation of those for the stage list sorted by
stage number (same ranges, names and colors, possibly in another
order). -/
theorem FMS.c3_ranges_perm_of_sorted (nm : String) (cols : List FMS.ColumnInfo)
    (stages : List FMS.WorkflowStage)
    (h : (stages.map (fun st => st.stage_number)).Nodup) :
    (FMS.coloredRanges (FMS.stageLayout ⟨nm, cols, stages⟩)).Perm
      (FMS.coloredRanges (FMS.stageLayout ⟨nm, cols, FMS.sortStages stages⟩)) := by
  have hperm : (FMS.sortStages stages).Perm stages :=
    List.perm_insertionSort _ _
  have h2 : ((FMS.sortStages stages).map (fun st => st.stage_number)).Nodup :=
    (hperm.map _).symm.nodup_iff.mp h
  unfold FMS.coloredRanges
  rw [FMS.stageLayout_ranges _ _ _ h, FMS.stageLayout_ranges _ _ _ h2]
  exact ((hperm.filterMap _).symm.map _)

theorem FMS.c3_witness :
    ((FMS.exC3wStages.map (fun st => st.stage_number)).Nodup) ∧
      (FMS.coloredRanges (FMS.stageLayout ⟨"S", FMS.exC3wCols, FMS.exC3wStages⟩)).Perm
        (FMS.coloredRanges
          (FMS.stageLayout ⟨"S", FMS.exC3wCols, FMS.sortStages FMS.exC3wStages⟩)) :=
  ⟨by decide, FMS.c3_ranges_perm_of_sorted "S" _ _ (by decide)⟩
